import Mathlib

set_option maxRecDepth 8000

/-!
Shallow embedding of `src/Fails/HW3b.py` (Student-t CDF homework script).

The Python program computes with IEEE doubles.  The embedding idealizes a
double as an extended rational: an `EFloat` is a finite rational, `+inf`,
`-inf` or `nan`, with CPython's special-value rules for the arithmetic the
program performs (`inf * 0 = nan`, `inf - inf = nan`, `nan` propagating,
`x ** 0 = 1`, `0 ** negative` raising `ZeroDivisionError`,
`float / 0` raising `ZeroDivisionError`, `math.sqrt` of a negative raising
`ValueError`).  Idealizations, none of which any analyzed execution path
depends on:
* finite arithmetic is exact rational arithmetic (no rounding, no overflow
  to `inf`, no `OverflowError`);
* `math.exp` at a finite nonzero argument, `math.sqrt` and non-integer
  powers of a positive base are replaced by computable positive rational
  surrogates (`eApproxQ ^ floor`, `ratSqrt`, integer-floor powers); every
  verified path evaluates these functions only at `0`, `±inf`, `nan`, or
  uses nothing about the surrogate value beyond finiteness and sign;
* a negative finite base raised to a non-integer power, for which Python 3
  returns a complex number, is collapsed to `nan`; no analyzed call path
  reaches that case (the CDF integrand's base `1 + u^2/m` is `>= 1`
  whenever the integral is reached, since that requires `m >= 2`);
* the signed zero `-0.0` is identified with `0`.
-/

/-- Python exceptions that the embedded code can raise. -/
inductive PyExc where
  | zeroDivisionError
  | valueError
  deriving DecidableEq, Repr

/-- An idealized Python float: a finite rational, `+inf`, `-inf`, or `nan`. -/
inductive EFloat where
  | finite (q : ℚ)
  | pinf
  | ninf
  | nan
  deriving DecidableEq, Repr

namespace EFloat

/-- Unary minus on floats. -/
def fneg : EFloat → EFloat
  | finite q => finite (-q)
  | pinf => ninf
  | ninf => pinf
  | nan => nan

/-- Float addition: `nan` propagates, `inf + (-inf) = nan`. -/
def fadd : EFloat → EFloat → EFloat
  | nan, _ => nan
  | _, nan => nan
  | finite p, finite q => finite (p + q)
  | finite _, pinf => pinf
  | finite _, ninf => ninf
  | pinf, finite _ => pinf
  | ninf, finite _ => ninf
  | pinf, pinf => pinf
  | ninf, ninf => ninf
  | pinf, ninf => nan
  | ninf, pinf => nan

/-- Float subtraction, `x - y = x + (-y)`. -/
def fsub (x y : EFloat) : EFloat := fadd x (fneg y)

/-- Float multiplication: `nan` propagates, `0 * inf = nan`. -/
def fmul : EFloat → EFloat → EFloat
  | nan, _ => nan
  | _, nan => nan
  | finite p, finite q => finite (p * q)
  | finite p, pinf => if 0 < p then pinf else if p < 0 then ninf else nan
  | finite p, ninf => if 0 < p then ninf else if p < 0 then pinf else nan
  | pinf, finite q => if 0 < q then pinf else if q < 0 then ninf else nan
  | ninf, finite q => if 0 < q then ninf else if q < 0 then pinf else nan
  | pinf, pinf => pinf
  | ninf, ninf => pinf
  | pinf, ninf => ninf
  | ninf, pinf => ninf

/-- Float division.  Python raises `ZeroDivisionError` whenever the
divisor is (finite) zero, including `inf / 0` and `nan / 0`. -/
def fdiv (x y : EFloat) : Except PyExc EFloat :=
  match y with
  | finite q =>
      if q = 0 then .error .zeroDivisionError
      else
        match x with
        | finite p => .ok (finite (p / q))
        | pinf => .ok (if 0 < q then pinf else ninf)
        | ninf => .ok (if 0 < q then ninf else pinf)
        | nan => .ok nan
  | nan => .ok nan
  | pinf =>
      match x with
      | finite _ => .ok (finite 0)
      | nan => .ok nan
      | _ => .ok nan
  | ninf =>
      match x with
      | finite _ => .ok (finite 0)
      | nan => .ok nan
      | _ => .ok nan

/-- Python `==` on floats: `nan` compares unequal to everything. -/
def pyEq : EFloat → EFloat → Bool
  | nan, _ => false
  | _, nan => false
  | finite p, finite q => p = q
  | pinf, pinf => true
  | ninf, ninf => true
  | _, _ => false

/-- Python `<=` on floats: any comparison involving `nan` is `False`. -/
def pyLe : EFloat → EFloat → Bool
  | nan, _ => false
  | _, nan => false
  | finite p, finite q => p ≤ q
  | finite _, pinf => true
  | finite _, ninf => false
  | pinf, finite _ => false
  | ninf, finite _ => true
  | pinf, pinf => true
  | ninf, ninf => true
  | pinf, ninf => false
  | ninf, pinf => true

/-- Computable rational surrogate for the square root:
`sqrt (num/den) ~ Nat.sqrt (num * den) / den`.  Exact only at `0`; positive
for every positive argument, which is all any verified path uses. -/
def ratSqrt (q : ℚ) : ℚ := (Nat.sqrt (q.num.toNat * q.den) : ℚ) / (q.den : ℚ)

/-- Python `math.sqrt`: raises `ValueError` on negative arguments,
`sqrt inf = inf`, `sqrt nan = nan`. -/
def fsqrt : EFloat → Except PyExc EFloat
  | finite q => if q < 0 then .error .valueError else .ok (finite (ratSqrt q))
  | pinf => .ok pinf
  | ninf => .error .valueError
  | nan => .ok nan

/-- Rational approximation of Euler's number (used only through `fexp`). -/
def eApproxQ : ℚ := 2718281828459045 / 1000000000000000

/-- Python `math.exp`, idealized: exact at `0` and at the special values
(`exp (-inf) = 0`, `exp inf = inf`, `exp nan = nan`); at a finite nonzero
argument a positive rational surrogate `eApproxQ ^ floor q`. -/
def fexp : EFloat → EFloat
  | finite q => finite (eApproxQ ^ ⌊q⌋)
  | pinf => pinf
  | ninf => finite 0
  | nan => nan

/-- Python `**` on floats, following CPython's `float_pow` special cases:
`x ** 0 = 1` (even for `nan`), `1 ** y = 1` (even for `y = nan`),
`0 ** negative` raises `ZeroDivisionError`, `0 ** positive = 0`,
`inf ** positive = inf`, `inf ** negative = 0`, `nan` propagates otherwise.
A positive finite base with a non-integer exponent gets the computable
surrogate `p ^ floor q` (exact whenever the exponent is an integer); a
negative finite base with a non-integer exponent (where Python 3 produces
a complex number, unreachable on every analyzed path) is collapsed to
`nan`. -/
def fpow (x y : EFloat) : Except PyExc EFloat :=
  match y with
  | nan =>
      match x with
      | finite p => if p = 1 then .ok (finite 1) else .ok nan
      | _ => .ok nan
  | pinf =>
      match x with
      | finite p =>
          if p = 1 ∨ p = -1 then .ok (finite 1)
          else if -1 < p ∧ p < 1 then .ok (finite 0)
          else .ok pinf
      | nan => .ok nan
      | _ => .ok pinf
  | ninf =>
      match x with
      | finite p =>
          if p = 1 ∨ p = -1 then .ok (finite 1)
          else if p = 0 then .error .zeroDivisionError
          else if -1 < p ∧ p < 1 then .ok pinf
          else .ok (finite 0)
      | nan => .ok nan
      | _ => .ok (finite 0)
  | finite q =>
      if q = 0 then .ok (finite 1)
      else
        match x with
        | finite p =>
            if p = 1 then .ok (finite 1)
            else if p = 0 then
              (if q < 0 then .error .zeroDivisionError else .ok (finite 0))
            else if 0 < p then .ok (finite (p ^ ⌊q⌋))
            else if q.den = 1 then .ok (finite (p ^ q.num))
            else .ok nan
        | pinf => if 0 < q then .ok pinf else .ok (finite 0)
        | ninf =>
            if 0 < q then
              (if q.den = 1 ∧ q.num % 2 ≠ 0 then .ok ninf else .ok pinf)
            else .ok (finite 0)
        | nan => .ok nan

/-- The double value of Python's `math.pi`, as an exact rational. -/
def piQ : ℚ := 884279719003555 / 281474976710656

/-- `math.pi` as an `EFloat`. -/
def fpi : EFloat := finite piQ

end EFloat

open EFloat

/-!
The program.  `src/Fails/HW3b.py` contains two textually identical nested
`integrate(a, b, N)` routines (one inside `gamma_function` closing over the
gamma integrand, one inside `calculate_probability` closing over the
module-level `integrand`); both are instances of the single trapezoidal
loop `trap` below, applied to the respective enclosing integrand.
-/

/-- The trapezoidal-rule loop shared by both nested `integrate(a, b, N)`
routines: `h = (b - a) / N`; `sum_area = 0.5 * (f(a) + f(b))`;
`for i in range(1, N): sum_area += f(a + i * h)`; `return h * sum_area`.
An exception raised by `f` (or by the division when `N = 0`) propagates. -/
def trap (f : EFloat → Except PyExc EFloat) (a b : EFloat) (N : ℕ) :
    Except PyExc EFloat := do
  let h ← fdiv (fsub b a) (finite (N : ℚ))
  let fa ← f a
  let fb ← f b
  let init := fmul (finite (1/2)) (fadd fa fb)
  let s ← (List.range' 1 (N - 1)).foldlM
    (fun acc (i : ℕ) => do
      let v ← f (fadd a (fmul (finite (i : ℚ)) h))
      pure (fadd acc v)) init
  pure (fmul h s)

/-- The integrand nested in `gamma_function`:
`math.exp(-t) * t ** (alpha - 1)`. -/
def gamma_integrand (alpha t : EFloat) : Except PyExc EFloat := do
  let p ← fpow t (fsub alpha (finite 1))
  pure (fmul (fexp (fneg t)) p)

/-- `gamma_function(alpha)`: trapezoidal integration of the gamma kernel
with the literal bounds `0` and `float('inf')` and `N = 1000`, i.e.
`integrate(0, float('inf'), 1000)`. -/
def gamma_function (alpha : EFloat) : Except PyExc EFloat :=
  trap (fun t => gamma_integrand alpha t) (finite 0) pinf 1000

/-- `calculate_Km(m)`:
`numerator = gamma_function(0.5 * m + 0.5)`;
`denominator = math.sqrt(m * math.pi) * gamma_function(0.5 * m)`;
`if denominator == 0: return float('inf')`;
`return numerator / denominator`. -/
def calculate_Km (m : EFloat) : Except PyExc EFloat := do
  let numerator ← gamma_function (fadd (fmul (finite (1/2)) m) (finite (1/2)))
  let s ← fsqrt (fmul m fpi)
  let g2 ← gamma_function (fmul (finite (1/2)) m)
  let denominator := fmul s g2
  if pyEq denominator (finite 0) then pure pinf
  else fdiv numerator denominator

/-- The module-level CDF integrand:
`(1 + u ** 2 / m) ** ((m + 1) / 2)` — note the positive exponent as
written in the source. -/
def integrand (u m : EFloat) : Except PyExc EFloat := do
  let u2 ← fpow u (finite 2)
  let r ← fdiv u2 m
  let e ← fdiv (fadd m (finite 1)) (finite 2)
  fpow (fadd (finite 1) r) e

/-- The tail of `calculate_probability` once `m` and `Km` are known: the
sentinel check `if Km == float('inf'): return float('nan')` followed, only
in the non-sentinel case, by the guarded CDF integral
`try: result = integrate(-float('inf'), z_value, 1000);
probability = Km * result; except: probability = float('nan')`. -/
def cdfAfterKm (m z Km : EFloat) : EFloat :=
  if pyEq Km pinf then nan
  else
    match trap (fun u => integrand u m) ninf z 1000 with
    | .error _ => nan
    | .ok r => fmul Km r

/-- `calculate_probability(degrees_of_freedom, z_value)`:
`m = degrees_of_freedom / 2`; `Km = calculate_Km(m)` (outside any
`try`); `if Km == float('inf'): return float('nan')`; then the CDF
integral from `-float('inf')` to `z_value` with `N = 1000` inside
`try/except`, any exception there becoming `float('nan')`. -/
def calculate_probability (df z : EFloat) : Except PyExc EFloat := do
  let m ← fdiv df (finite 2)
  let Km ← calculate_Km m
  if pyEq Km pinf then pure nan
  else
    match trap (fun u => integrand u m) ninf z 1000 with
    | .error _ => pure nan
    | .ok r => pure (fmul Km r)

/-!
Spec-side definitions for the refinement claim about the integrator
(claim C7): the closed trapezoidal formula
`h * (0.5*f(a) + 0.5*f(b) + Σ_{i=1}^{N-1} f(a + i*h))` as the spec words
it, together with the list of sampled abscissae.
-/

/-- Value of a successful evaluation (`nan` on the error branch, which the
formula below is never applied to). -/
def okVal (e : Except PyExc EFloat) : EFloat :=
  match e with
  | .ok v => v
  | .error _ => nan

/-- Sum of a list of floats, `Σ` of the spec's formula. -/
def listSum (l : List EFloat) : EFloat := l.foldr fadd (finite 0)

/-- All abscissae the trapezoidal rule samples: the two endpoints and the
interior points `a + i * h`, `i = 1, …, N-1`. -/
def sampleList (aq bq : ℚ) (N : ℕ) : List ℚ :=
  aq :: bq :: (List.range' 1 (N - 1)).map
    (fun (i : ℕ) => aq + (i : ℚ) * ((bq - aq) / (N : ℚ)))

/-- The composite trapezoidal rule exactly as the spec states it:
`h * (0.5*f(a) + 0.5*f(b) + Σ_{i=1}^{N-1} f(a + i*h))` with
`h = (b-a)/N`. -/
def specTrapezoid (f : EFloat → Except PyExc EFloat) (aq bq : ℚ) (N : ℕ) : EFloat :=
  fmul (finite ((bq - aq) / (N : ℚ)))
    (fadd
      (fadd (fmul (finite (1/2)) (okVal (f (finite aq))))
            (fmul (finite (1/2)) (okVal (f (finite bq)))))
      (listSum ((List.range' 1 (N - 1)).map
        (fun (i : ℕ) => okVal (f (finite (aq + (i : ℚ) * ((bq - aq) / (N : ℚ)))))))))

/-! Basic algebra of the float model. -/

/-- Adding `nan` on the right gives `nan`. -/
theorem fadd_nan (x : EFloat) : fadd x nan = nan := by
  cases x <;> rfl

/-- Adding `nan` on the left gives `nan`. -/
theorem nan_fadd (x : EFloat) : fadd nan x = nan := by
  cases x <;> rfl

/-- Adding a literal zero on the right is the identity. -/
theorem fadd_zero (x : EFloat) : fadd x (finite 0) = x := by
  cases x <;> simp [fadd]

/-- Float addition is associative in the extended-rational model. -/
theorem fadd_assoc (x y z : EFloat) :
    fadd (fadd x y) z = fadd x (fadd y z) := by
  cases x <;> cases y <;> cases z <;> simp [fadd, add_assoc]

/-- Multiplication by one half distributes over addition in the model. -/
theorem half_fmul_fadd (x y : EFloat) :
    fmul (finite (1/2)) (fadd x y) =
      fadd (fmul (finite (1/2)) x) (fmul (finite (1/2)) y) := by
  cases x <;> cases y <;>
    simp [fmul, fadd, mul_add]

/-- Multiplying `nan` by anything gives `nan`. -/
theorem nan_fmul (x : EFloat) : fmul nan x = nan := by
  cases x <;> rfl

/-- A positive finite float times `+inf` is `+inf`. -/
theorem fmul_pos_pinf {q : ℚ} (h : 0 < q) : fmul (finite q) pinf = pinf := by
  simp [fmul, h]

/-- `+inf` times `nan` is `nan`. -/
theorem pinf_fmul_nan : fmul pinf nan = nan := rfl

/-- The surrogate square root is positive on positive arguments. -/
theorem ratSqrt_pos {q : ℚ} (h : 0 < q) : 0 < ratSqrt q := by
  have hnum : 0 < q.num := Rat.num_pos.mpr h
  have hden : 0 < q.den := q.den_pos
  have h1 : 1 ≤ q.num.toNat * q.den := by
    have : 1 ≤ q.num.toNat := by omega
    exact Nat.one_le_iff_ne_zero.mpr (by positivity)
  have hs : 1 ≤ Nat.sqrt (q.num.toNat * q.den) :=
    Nat.le_sqrt.mpr (by omega)
  have : (0 : ℚ) < (Nat.sqrt (q.num.toNat * q.den) : ℚ) := by
    exact_mod_cast Nat.lt_of_lt_of_le Nat.zero_lt_one hs
  exact div_pos this (by exact_mod_cast hden)

/-- Squaring in the model: `fpow x 2` never raises on a finite base and is
the exact rational square. -/
theorem fpow_finite_two (p : ℚ) :
    fpow (finite p) (finite 2) = .ok (finite (p ^ 2)) := by
  have h : fpow (finite p) (finite 2) =
      if (2:ℚ) = 0 then .ok (finite 1)
      else if p = 1 then .ok (finite 1)
      else if p = 0 then
        (if (2:ℚ) < 0 then .error .zeroDivisionError else .ok (finite 0))
      else if 0 < p then .ok (finite (p ^ ⌊(2:ℚ)⌋))
      else if ((2:ℚ)).den = 1 then .ok (finite (p ^ ((2:ℚ)).num))
      else .ok nan := rfl
  rw [h, if_neg (by norm_num : ¬ (2:ℚ) = 0)]
  rcases eq_or_ne p 1 with h1 | h1
  · subst h1; norm_num
  · rw [if_neg h1]
    rcases eq_or_ne p 0 with h0 | h0
    · subst h0; norm_num
    · rw [if_neg h0]
      rcases h0.lt_or_lt with hp | hp
      · rw [if_neg (not_lt_of_gt hp),
            if_pos (show ((2:ℚ)).den = 1 by norm_num)]
        norm_num [show ((2:ℚ)).num = 2 by norm_num, zpow_two, pow_two]
      · rw [if_pos hp]
        norm_num [show ⌊(2:ℚ)⌋ = 2 by norm_num, zpow_two, pow_two]

/-! Fold lemmas for the trapezoidal loop. -/

/-- An `Except` value is `ok` exactly when it is `.ok` of something. -/
theorem isOk_iff {e : Except PyExc EFloat} : e.isOk = true ↔ ∃ v, e = .ok v := by
  cases e <;> simp [Except.isOk, Except.toBool]

/-- If the step function fixes the accumulator on each list element, the
monadic fold returns the accumulator. -/
theorem foldlM_const (step : EFloat → ℕ → Except PyExc EFloat) (c : EFloat)
    (l : List ℕ) (h : ∀ i ∈ l, step c i = .ok c) :
    l.foldlM step c = .ok c := by
  induction l with
  | nil => rfl
  | cons a t ih =>
      have ha := h a (List.mem_cons_self a t)
      have ht : ∀ i ∈ t, step c i = .ok c := fun i hi => h i (List.mem_cons_of_mem a hi)
      simp only [List.foldlM, ha]
      exact ih ht

/-- When every term of the loop evaluates successfully, the monadic
accumulation is the pure fold of the term values. -/
theorem foldlM_ok (g : ℕ → Except PyExc EFloat) (l : List ℕ)
    (h : ∀ i ∈ l, (g i).isOk = true) (init : EFloat) :
    l.foldlM (fun acc i => do
        let v ← g i
        pure (fadd acc v)) init =
      .ok (l.foldl (fun acc i => fadd acc (okVal (g i))) init) := by
  induction l generalizing init with
  | nil => rfl
  | cons a t ih =>
      obtain ⟨v, hv⟩ := isOk_iff.mp (h a (List.mem_cons_self a t))
      have ht : ∀ i ∈ t, (g i).isOk = true := fun i hi => h i (List.mem_cons_of_mem a hi)
      simp only [List.foldlM, List.foldl, hv, okVal, bind, Except.bind, pure]
      exact ih ht (fadd init v)

/-- A pure fold of `fadd` starting from `nan` stays `nan`. -/
theorem foldl_fadd_nan (f : ℕ → EFloat) (l : List ℕ) :
    l.foldl (fun acc i => fadd acc (f i)) nan = nan := by
  induction l with
  | nil => rfl
  | cons a t ih => simpa [List.foldl, nan_fadd] using ih

/-- A pure fold of `fadd` is the initial value plus the sum of the terms. -/
theorem foldl_fadd_eq_listSum (f : ℕ → EFloat) (l : List ℕ) (init : EFloat) :
    l.foldl (fun acc i => fadd acc (f i)) init = fadd init (listSum (l.map f)) := by
  induction l generalizing init with
  | nil => simp [listSum, fadd_zero]
  | cons a t ih =>
      simp only [List.foldl, List.map, listSum, List.foldr]
      rw [ih (fadd init (f a)), fadd_assoc]
      rfl

/-! Reduction lemmas for the arithmetic on concrete constructor shapes. -/

/-- `fpow` on two finite floats, unfolded. -/
theorem fpow_fin (p q : ℚ) :
    fpow (finite p) (finite q) =
      if q = 0 then .ok (finite 1)
      else if p = 1 then .ok (finite 1)
      else if p = 0 then
        (if q < 0 then .error .zeroDivisionError else .ok (finite 0))
      else if 0 < p then .ok (finite (p ^ ⌊q⌋))
      else if q.den = 1 then .ok (finite (p ^ q.num))
      else .ok nan := rfl

/-- `fpow` of `+inf` to a finite exponent, unfolded. -/
theorem fpow_pinf_fin (q : ℚ) :
    fpow pinf (finite q) =
      if q = 0 then .ok (finite 1)
      else if 0 < q then .ok pinf else .ok (finite 0) := rfl

/-- `fpow` of `nan` to a finite exponent, unfolded. -/
theorem fpow_nan_fin (q : ℚ) :
    fpow nan (finite q) =
      if q = 0 then .ok (finite 1) else .ok nan := rfl

/-- `fpow` of `-inf` to a finite exponent, unfolded. -/
theorem fpow_ninf_fin (q : ℚ) :
    fpow ninf (finite q) =
      if q = 0 then .ok (finite 1)
      else if 0 < q then
        (if q.den = 1 ∧ q.num % 2 ≠ 0 then .ok ninf else .ok pinf)
      else .ok (finite 0) := rfl

/-- `fdiv` by a finite float, numerator finite, unfolded. -/
theorem fdiv_fin_fin (p q : ℚ) :
    fdiv (finite p) (finite q) =
      if q = 0 then .error .zeroDivisionError else .ok (finite (p / q)) := rfl

/-- `fdiv` of `+inf` by a finite float, unfolded. -/
theorem fdiv_pinf_fin (q : ℚ) :
    fdiv pinf (finite q) =
      if q = 0 then .error .zeroDivisionError
      else .ok (if 0 < q then pinf else ninf) := rfl

/-- `fdiv` of `nan` by a finite float, unfolded. -/
theorem fdiv_nan_fin (q : ℚ) :
    fdiv nan (finite q) =
      if q = 0 then .error .zeroDivisionError else .ok nan := rfl

/-- Division by `+inf` or `-inf` or `nan` never raises; `nan / inf = nan`. -/
theorem fdiv_nan_pinf : fdiv nan pinf = .ok nan := rfl

/-- Division of `nan` by `nan` is `nan`. -/
theorem fdiv_nan_nan : fdiv nan nan = .ok nan := rfl

/-- `fmul` of a finite float and `+inf`, unfolded. -/
theorem fmul_fin_pinf (p : ℚ) :
    fmul (finite p) pinf =
      if 0 < p then pinf else if p < 0 then ninf else nan := rfl

/-- `fmul` of two finite floats. -/
theorem fmul_fin_fin (p q : ℚ) : fmul (finite p) (finite q) = finite (p * q) := rfl

/-- `fmul` with `nan` on the right. -/
theorem fmul_nan (x : EFloat) : fmul x nan = nan := by cases x <;> rfl

/-- `fsqrt` on a finite float, unfolded. -/
theorem fsqrt_fin (q : ℚ) :
    fsqrt (finite q) =
      if q < 0 then .error .valueError else .ok (finite (ratSqrt q)) := rfl

/-- Monadic bind of a successful `Except` value. -/
theorem ok_bind (v : EFloat) (k : EFloat → Except PyExc EFloat) :
    (Except.ok v : Except PyExc EFloat) >>= k = k v := rfl

/-- Monadic bind of a failed `Except` value. -/
theorem error_bind (e : PyExc) (k : EFloat → Except PyExc EFloat) :
    (Except.error e : Except PyExc EFloat) >>= k = .error e := rfl

/-! Behaviour of `gamma_function`: the upper bound is the literal
`float('inf')`, so the step `h` is `+inf` and every interior sample sits
at `+inf`. -/

/-- One-step unfolding of `gamma_function`: the step size evaluates to
`+inf` and each interior abscissa is `0 + i * inf`. -/
theorem gamma_step (alpha : EFloat) :
    gamma_function alpha =
      (do
        let fa ← gamma_integrand alpha (finite 0)
        let fb ← gamma_integrand alpha pinf
        let s ← (List.range' 1 999).foldlM
          (fun acc (i : ℕ) => do
            let v ← gamma_integrand alpha (fadd (finite 0) (fmul (finite (i : ℚ)) pinf))
            pure (fadd acc v)) (fmul (finite (1/2)) (fadd fa fb))
        pure (fmul pinf s)) := by
  unfold gamma_function trap
  have e0 : fsub pinf (finite 0) = pinf := rfl
  rw [e0, fdiv_pinf_fin, if_neg (by norm_num : ¬ ((1000:ℕ):ℚ) = 0),
      if_pos (by norm_num : (0:ℚ) < ((1000:ℕ):ℚ)), ok_bind]

/-- The gamma integrand at the left endpoint `t = 0` raises
`ZeroDivisionError` when `alpha < 1` (Python evaluates `0 ** negative`). -/
theorem gi_zero_lt {alpha : ℚ} (h : alpha < 1) :
    gamma_integrand (finite alpha) (finite 0) = .error .zeroDivisionError := by
  unfold gamma_integrand
  have e1 : fsub (finite alpha) (finite 1) = finite (alpha + -1) := rfl
  rw [e1, fpow_fin, if_neg (by intro h0; linarith : ¬ alpha + -1 = 0),
      if_neg (by norm_num : ¬ (0:ℚ) = 1), if_pos rfl,
      if_pos (by linarith : alpha + -1 < 0)]
  rfl

/-- The gamma integrand at `t = 0` evaluates to `0` when `alpha > 1`. -/
theorem gi_zero_gt {alpha : ℚ} (h : 1 < alpha) :
    gamma_integrand (finite alpha) (finite 0) = .ok (finite 0) := by
  unfold gamma_integrand
  have e1 : fsub (finite alpha) (finite 1) = finite (alpha + -1) := rfl
  rw [e1, fpow_fin, if_neg (by intro h0; linarith : ¬ alpha + -1 = 0),
      if_neg (by norm_num : ¬ (0:ℚ) = 1), if_pos rfl,
      if_neg (by intro h0; linarith : ¬ alpha + -1 < 0)]
  rw [ok_bind]
  have e2 : fexp (fneg (finite 0)) = finite (eApproxQ ^ ⌊(-0 : ℚ)⌋) := rfl
  rw [e2, fmul_fin_fin, mul_zero]
  rfl

/-- The gamma integrand at `t = 0` evaluates to `1` when `alpha = 1`
(Python computes `0 ** 0.0 = 1.0`). -/
theorem gi_zero_one :
    gamma_integrand (finite 1) (finite 0) = .ok (finite 1) := by
  unfold gamma_integrand
  have e1 : fsub (finite 1) (finite 1) = finite ((1:ℚ) + -1) := rfl
  rw [e1, fpow_fin, if_pos (by norm_num : (1:ℚ) + -1 = 0), ok_bind]
  have e2 : fexp (fneg (finite 0)) = finite (eApproxQ ^ ⌊(-0 : ℚ)⌋) := rfl
  rw [e2, fmul_fin_fin]
  norm_num
  rfl

/-- The gamma integrand at `t = +inf` evaluates to `0 * inf = nan` when
`alpha > 1`. -/
theorem gi_pinf_gt {alpha : ℚ} (h : 1 < alpha) :
    gamma_integrand (finite alpha) pinf = .ok nan := by
  unfold gamma_integrand
  have e1 : fsub (finite alpha) (finite 1) = finite (alpha + -1) := rfl
  rw [e1, fpow_pinf_fin, if_neg (by intro h0; linarith : ¬ alpha + -1 = 0),
      if_pos (by linarith : (0:ℚ) < alpha + -1), ok_bind]
  have e2 : fexp (fneg pinf) = finite 0 := rfl
  rw [e2, fmul_fin_pinf, if_neg (by norm_num), if_neg (by norm_num)]
  rfl

/-- The gamma integrand at `t = +inf` evaluates to `0 * 1 = 0` when
`alpha = 1` (the exponent is `0` and `inf ** 0.0 = 1.0`). -/
theorem gi_pinf_one :
    gamma_integrand (finite 1) pinf = .ok (finite 0) := by
  unfold gamma_integrand
  have e1 : fsub (finite 1) (finite 1) = finite ((1:ℚ) + -1) := rfl
  rw [e1, fpow_pinf_fin, if_pos (by norm_num : (1:ℚ) + -1 = 0), ok_bind]
  have e2 : fexp (fneg pinf) = finite 0 := rfl
  rw [e2, fmul_fin_fin]
  norm_num
  rfl

/-- Every interior abscissa of the gamma integration is `0 + i * inf = +inf`. -/
theorem gamma_point_pinf {i : ℕ} (h : 1 ≤ i) :
    fadd (finite 0) (fmul (finite (i : ℚ)) pinf) = pinf := by
  rw [fmul_fin_pinf, if_pos (by exact_mod_cast Nat.pos_of_ne_zero (by omega))]
  rfl

/-- `gamma_function` raises `ZeroDivisionError` for every finite
`alpha < 1`. -/
theorem gamma_err_lt_one {alpha : ℚ} (h : alpha < 1) :
    gamma_function (finite alpha) = .error .zeroDivisionError := by
  rw [gamma_step, gi_zero_lt h]
  rfl

/-- `gamma_function` returns `nan` for every finite `alpha > 1`. -/
theorem gamma_nan_gt_one {alpha : ℚ} (h : 1 < alpha) :
    gamma_function (finite alpha) = .ok nan := by
  rw [gamma_step, gi_zero_gt h, ok_bind, gi_pinf_gt h, ok_bind]
  have einit : fmul (finite (1/2)) (fadd (finite 0) nan) = nan := by
    rw [fadd_nan]; rfl
  rw [einit]
  rw [foldlM_const _ nan _ (fun i hi => by
    have h1 : 1 ≤ i := (List.mem_range'_1.mp hi).1
    rw [gamma_point_pinf h1, gi_pinf_gt h, ok_bind, nan_fadd]
    rfl)]
  rw [ok_bind]
  rfl

/-- `gamma_function` returns `+inf` at `alpha = 1`. -/
theorem gamma_pinf_one : gamma_function (finite 1) = .ok pinf := by
  rw [gamma_step, gi_zero_one, ok_bind, gi_pinf_one, ok_bind]
  have einit : fmul (finite (1/2)) (fadd (finite 1) (finite 0)) = finite (1/2) := by
    rw [fadd_zero, fmul_fin_fin, mul_one]
  rw [einit]
  rw [foldlM_const _ (finite (1/2)) _ (fun i hi => by
    have h1 : 1 ≤ i := (List.mem_range'_1.mp hi).1
    rw [gamma_point_pinf h1, gi_pinf_one, ok_bind, fadd_zero]
    rfl)]
  rw [ok_bind]
  have : fmul pinf (finite (1/2)) = pinf := by
    have e : fmul pinf (finite (1/2)) =
        if 0 < (1/2 : ℚ) then pinf else if (1/2 : ℚ) < 0 then ninf else nan := rfl
    rw [e, if_pos (by norm_num)]
  rw [this]
  rfl

/-! Behaviour of `calculate_Km` and `calculate_probability`. -/

/-- One-step unfolding of `calculate_Km` on a finite argument. -/
theorem Km_step (m : ℚ) :
    calculate_Km (finite m) =
      (do
        let numerator ← gamma_function (finite (1/2 * m + 1/2))
        let s ← fsqrt (finite (m * piQ))
        let g2 ← gamma_function (finite (1/2 * m))
        if pyEq (fmul s g2) (finite 0) then pure pinf
        else fdiv numerator (fmul s g2)) := rfl

/-- Python's `math.pi` double is positive. -/
theorem piQ_pos : (0:ℚ) < piQ := by norm_num [piQ]

/-- For `m >= 2` the second gamma evaluation returns `+inf` (at `m = 2`,
where the argument is `1`) or `nan` (for `m > 2`). -/
theorem Km_den_cases {m : ℚ} (hm : 2 ≤ m) :
    (gamma_function (finite (1/2 * m)) = .ok pinf ∧ m = 2) ∨
    (gamma_function (finite (1/2 * m)) = .ok nan ∧ 2 < m) := by
  rcases eq_or_lt_of_le hm with hm2 | hm2
  · left
    refine ⟨?_, hm2.symm⟩
    rw [show (1/2 * m : ℚ) = 1 by rw [← hm2]; norm_num]
    exact gamma_pinf_one
  · right
    exact ⟨gamma_nan_gt_one (by linarith), hm2⟩

/-- The square-root factor of the denominator evaluates successfully for
`m > 0`. -/
theorem Km_sqrt_ok {m : ℚ} (hm : 0 < m) :
    fsqrt (finite (m * piQ)) = .ok (finite (ratSqrt (m * piQ))) := by
  rw [fsqrt_fin, if_neg (not_lt.mpr (le_of_lt (mul_pos hm piQ_pos)))]

/-- For every `m >= 2`, `calculate_Km` returns `nan`: the numerator gamma
is `nan`, the denominator is `+inf` or `nan` (never `0`), and `nan`
divided by either is `nan`. -/
theorem Km_nan {m : ℚ} (hm : 2 ≤ m) : calculate_Km (finite m) = .ok nan := by
  have hnum : gamma_function (finite (1/2 * m + 1/2)) = .ok nan :=
    gamma_nan_gt_one (by linarith)
  have hs' := Km_sqrt_ok (show (0:ℚ) < m by linarith)
  have hsq : 0 < ratSqrt (m * piQ) :=
    ratSqrt_pos (mul_pos (by linarith) piQ_pos)
  rcases Km_den_cases hm with ⟨hg2, _⟩ | ⟨hg2, _⟩
  · rw [Km_step, hnum, ok_bind, hs', ok_bind, hg2, ok_bind,
        fmul_pos_pinf hsq]
    have hpe : pyEq pinf (finite 0) = false := rfl
    rw [hpe]
    simp only [Bool.false_eq_true, if_false]
    exact fdiv_nan_pinf
  · rw [Km_step, hnum, ok_bind, hs', ok_bind, hg2, ok_bind, fmul_nan]
    have hpe : pyEq nan (finite 0) = false := rfl
    rw [hpe]
    simp only [Bool.false_eq_true, if_false]
    exact fdiv_nan_nan

/-- For every `m < 2`, `calculate_Km` raises `ZeroDivisionError`: one of
the two gamma evaluations hits `0 ** negative`. -/
theorem Km_err {m : ℚ} (hm : m < 2) :
    calculate_Km (finite m) = .error .zeroDivisionError := by
  rcases lt_or_le m 1 with h1 | h1
  · have hnum : gamma_function (finite (1/2 * m + 1/2)) = .error .zeroDivisionError :=
      gamma_err_lt_one (by linarith)
    rw [Km_step, hnum]
    rfl
  · have hnum : ∃ w, gamma_function (finite (1/2 * m + 1/2)) = .ok w := by
      rcases eq_or_lt_of_le h1 with h1' | h1'
      · refine ⟨pinf, ?_⟩
        rw [show (1/2 * m + 1/2 : ℚ) = 1 by rw [← h1']; norm_num]
        exact gamma_pinf_one
      · exact ⟨nan, gamma_nan_gt_one (by linarith)⟩
    obtain ⟨w, hw⟩ := hnum
    have hs' := Km_sqrt_ok (show (0:ℚ) < m by linarith)
    have hg2 : gamma_function (finite (1/2 * m)) = .error .zeroDivisionError :=
      gamma_err_lt_one (by linarith)
    rw [Km_step, hw, ok_bind, hs', ok_bind, hg2]
    rfl

/-- One-step unfolding of `calculate_probability` on finite arguments:
`m = df / 2` always computes. -/
theorem cp_step (df z : ℚ) :
    calculate_probability (finite df) (finite z) =
      (do
        let Km ← calculate_Km (finite (df / 2))
        if pyEq Km pinf then pure nan
        else
          match trap (fun u => integrand u (finite (df / 2))) ninf (finite z) 1000 with
          | .error _ => pure nan
          | .ok r => pure (fmul Km r)) := by
  unfold calculate_probability
  rw [fdiv_fin_fin, if_neg (by norm_num : ¬ (2:ℚ) = 0), ok_bind]

/-- The CDF integrand at `u = -inf`: `(-inf)^2 = inf`, so the base is
`inf` and the positive power gives `inf`. -/
theorem integrand_ninf {m : ℚ} (hm : 2 ≤ m) :
    integrand ninf (finite m) = .ok pinf := by
  unfold integrand
  rw [fpow_ninf_fin, if_neg (by norm_num : ¬ (2:ℚ) = 0),
      if_pos (by norm_num : (0:ℚ) < 2),
      if_neg (by norm_num : ¬ (((2:ℚ)).den = 1 ∧ ((2:ℚ)).num % 2 ≠ 0)), ok_bind,
      fdiv_pinf_fin, if_neg (by intro h0; linarith : ¬ m = 0),
      if_pos (by linarith : (0:ℚ) < m), ok_bind]
  have e1 : fadd (finite m) (finite 1) = finite (m + 1) := rfl
  rw [e1, fdiv_fin_fin, if_neg (by norm_num : ¬ (2:ℚ) = 0), ok_bind]
  have e2 : fadd (finite 1) pinf = pinf := rfl
  rw [e2, fpow_pinf_fin, if_neg (by intro h0; linarith : ¬ (m + 1) / 2 = 0),
      if_pos (by linarith : (0:ℚ) < (m + 1) / 2)]

/-- The CDF integrand at `u = nan` is `nan` (and does not raise) for
`m >= 2`. -/
theorem integrand_nan {m : ℚ} (hm : 2 ≤ m) :
    integrand nan (finite m) = .ok nan := by
  unfold integrand
  rw [fpow_nan_fin, if_neg (by norm_num : ¬ (2:ℚ) = 0), ok_bind,
      fdiv_nan_fin, if_neg (by intro h0; linarith : ¬ m = 0), ok_bind]
  have e1 : fadd (finite m) (finite 1) = finite (m + 1) := rfl
  rw [e1, fdiv_fin_fin, if_neg (by norm_num : ¬ (2:ℚ) = 0), ok_bind]
  have e2 : fadd (finite 1) nan = nan := rfl
  rw [e2, fpow_nan_fin, if_neg (by intro h0; linarith : ¬ (m + 1) / 2 = 0)]

/-- The CDF integrand at a finite `u` evaluates to a finite float for
`m >= 2` (the base `1 + u^2/m >= 1` is positive). -/
theorem integrand_fin {m z : ℚ} (hm : 2 ≤ m) :
    ∃ v : ℚ, integrand (finite z) (finite m) = .ok (finite v) := by
  unfold integrand
  rw [fpow_finite_two, ok_bind, fdiv_fin_fin,
      if_neg (by intro h0; linarith : ¬ m = 0), ok_bind]
  have e1 : fadd (finite m) (finite 1) = finite (m + 1) := rfl
  rw [e1, fdiv_fin_fin, if_neg (by norm_num : ¬ (2:ℚ) = 0), ok_bind]
  have e2 : fadd (finite 1) (finite (z ^ 2 / m)) = finite (1 + z ^ 2 / m) := rfl
  rw [e2, fpow_fin]
  have hbase : (1:ℚ) ≤ 1 + z ^ 2 / m := by
    have : (0:ℚ) ≤ z ^ 2 / m := div_nonneg (sq_nonneg z) (by linarith)
    linarith
  rcases eq_or_ne (1 + z ^ 2 / m) 1 with h1 | h1
  · rw [if_neg (by intro h0; linarith : ¬ (m + 1) / 2 = 0), if_pos h1]
    exact ⟨1, rfl⟩
  · rw [if_neg (by intro h0; linarith : ¬ (m + 1) / 2 = 0), if_neg h1,
        if_neg (by intro h0; linarith [hbase] : ¬ 1 + z ^ 2 / m = 0),
        if_pos (by linarith [hbase.lt_of_ne (Ne.symm h1)] : (0:ℚ) < 1 + z ^ 2 / m)]
    exact ⟨(1 + z ^ 2 / m) ^ ⌊(m + 1) / 2⌋, rfl⟩

/-- One-step unfolding of the CDF integration: from the lower bound
`-float('inf')` to a finite `z`, the step `h` evaluates to `+inf` and each
interior abscissa is `-inf + i * inf`. -/
theorem cdf_step (m : EFloat) (z : ℚ) :
    trap (fun u => integrand u m) ninf (finite z) 1000 =
      (do
        let fa ← integrand ninf m
        let fb ← integrand (finite z) m
        let s ← (List.range' 1 999).foldlM
          (fun acc (i : ℕ) => do
            let v ← integrand (fadd ninf (fmul (finite (i : ℚ)) pinf)) m
            pure (fadd acc v)) (fmul (finite (1/2)) (fadd fa fb))
        pure (fmul pinf s)) := by
  unfold trap
  have e0 : fsub (finite z) ninf = pinf := rfl
  rw [e0, fdiv_pinf_fin, if_neg (by norm_num : ¬ ((1000:ℕ):ℚ) = 0),
      if_pos (by norm_num : (0:ℚ) < ((1000:ℕ):ℚ)), ok_bind]

/-- The CDF integral from `-float('inf')` to a finite `z` with `N = 1000`
evaluates to `nan` for `m >= 2`: the left endpoint contributes `+inf`, and
every interior abscissa is `-inf + i*inf = nan`. -/
theorem cdf_trap_nan {m z : ℚ} (hm : 2 ≤ m) :
    trap (fun u => integrand u (finite m)) ninf (finite z) 1000 = .ok nan := by
  rw [cdf_step, integrand_ninf hm, ok_bind]
  obtain ⟨v, hv⟩ := integrand_fin (z := z) hm
  rw [hv, ok_bind]
  have einit : fmul (finite (1/2)) (fadd pinf (finite v)) = pinf := by
    have e1 : fadd pinf (finite v) = pinf := rfl
    rw [e1]
    have e2 : fmul (finite (1/2)) pinf =
        if 0 < (1/2:ℚ) then pinf else if (1/2:ℚ) < 0 then ninf else nan := rfl
    rw [e2, if_pos (by norm_num)]
  rw [einit]
  have hok : ∀ i ∈ List.range' 1 999,
      (integrand (fadd ninf (fmul (finite (i:ℚ)) pinf)) (finite m)).isOk = true := by
    intro i hi
    have h1 : 1 ≤ i := (List.mem_range'_1.mp hi).1
    have hpt : fadd ninf (fmul (finite (i:ℚ)) pinf) = nan := by
      rw [fmul_fin_pinf, if_pos (by exact_mod_cast Nat.pos_of_ne_zero (by omega))]
      rfl
    rw [hpt, integrand_nan hm]
    rfl
  rw [foldlM_ok (fun i => integrand (fadd ninf (fmul (finite (i:ℚ)) pinf)) (finite m))
        (List.range' 1 999) hok pinf, ok_bind]
  have hfold : (List.range' 1 999).foldl
      (fun acc (i : ℕ) => fadd acc (okVal (integrand (fadd ninf (fmul (finite (i:ℚ)) pinf)) (finite m))))
      pinf = nan := by
    rw [show (999:ℕ) = 998 + 1 from rfl, List.range'_succ, List.foldl_cons]
    have hpt1 : fadd ninf (fmul (finite ((1:ℕ):ℚ)) pinf) = nan := by
      rw [fmul_fin_pinf, if_pos (by norm_num : (0:ℚ) < ((1:ℕ):ℚ))]
      rfl
    rw [hpt1, integrand_nan hm]
    have e3 : fadd pinf (okVal (Except.ok nan)) = nan := rfl
    rw [e3]
    exact foldl_fadd_nan _ _
  rw [hfold]
  rfl

/-- For every finite `df >= 4` and finite `z`, `calculate_probability`
returns `nan`: `Km = nan`, the sentinel test fails, and `nan` times the
(`nan`-valued) integral is `nan`. -/
theorem cp_nan_ge_four {df z : ℚ} (h4 : 4 ≤ df) :
    calculate_probability (finite df) (finite z) = .ok nan := by
  rw [cp_step]
  have hm : (2:ℚ) ≤ df / 2 := by linarith
  rw [Km_nan hm, ok_bind]
  have hpe : pyEq nan pinf = false := rfl
  rw [hpe]
  simp only [Bool.false_eq_true, if_false]
  rw [cdf_trap_nan hm]
  rfl

/-- For every finite `df < 4` and finite `z`, `calculate_probability`
raises `ZeroDivisionError` out of `calculate_Km`, which runs outside the
`try/except`. -/
theorem cp_err_lt_four {df z : ℚ} (h4 : df < 4) :
    calculate_probability (finite df) (finite z) = .error .zeroDivisionError := by
  rw [cp_step, Km_err (by linarith : df / 2 < 2)]
  rfl

/-- `okVal` of a successful result. -/
theorem okVal_ok (v : EFloat) : okVal (.ok v) = v := rfl

/-- The trapezoidal loop `trap` computes exactly the spec's closed formula
`h * (0.5*f(a) + 0.5*f(b) + Σ_{i=1}^{N-1} f(a + i*h))` whenever every
sampled evaluation of the integrand succeeds. -/
theorem trap_spec (f : EFloat → Except PyExc EFloat) (aq bq : ℚ) (N : ℕ)
    (hN : 1 ≤ N)
    (hok : ∀ t ∈ sampleList aq bq N, (f (finite t)).isOk = true) :
    trap f (finite aq) (finite bq) N = .ok (specTrapezoid f aq bq N) := by
  obtain ⟨va, hva⟩ := isOk_iff.mp (hok aq (List.mem_cons_self _ _))
  obtain ⟨vb, hvb⟩ := isOk_iff.mp
    (hok bq (List.mem_cons_of_mem _ (List.mem_cons_self _ _)))
  have hokin : ∀ i ∈ List.range' 1 (N - 1),
      (f (finite (aq + (i:ℚ) * ((bq - aq) / (N:ℚ))))).isOk = true := by
    intro i hi
    refine hok _ (List.mem_cons_of_mem _ (List.mem_cons_of_mem _ ?_))
    exact List.mem_map_of_mem _ hi
  unfold trap
  have e0 : fsub (finite bq) (finite aq) = finite (bq + -aq) := rfl
  rw [e0, fdiv_fin_fin,
      if_neg (show ¬ ((N:ℚ) = 0) from Nat.cast_ne_zero.mpr (by omega)), ok_bind]
  simp only [show (bq + -aq : ℚ) = bq - aq from by ring]
  rw [hva, ok_bind, hvb, ok_bind, half_fmul_fadd]
  have hpt : ∀ i : ℕ,
      fadd (finite aq) (fmul (finite (i:ℚ)) (finite ((bq - aq)/(N:ℚ)))) =
        finite (aq + (i:ℚ) * ((bq - aq)/(N:ℚ))) := fun i => rfl
  simp only [hpt]
  rw [foldlM_ok (fun i => f (finite (aq + (i:ℚ) * ((bq - aq)/(N:ℚ)))))
        (List.range' 1 (N - 1)) hokin
        (fadd (fmul (finite (1/2)) va) (fmul (finite (1/2)) vb)), ok_bind,
      foldl_fadd_eq_listSum]
  unfold specTrapezoid
  simp only [hva, hvb, okVal_ok]
  rfl

/-!
The claims.
-/

/-- C1: the claim states the CDF integrand equals the t-density kernel
with the reciprocal power `(1 + u^2/m)^(-(m+1)/2)`.  The code computes the
positive power: at `u = 1`, `m = 1` the code's integrand evaluates to
`(1 + 1)^1 = 2`, whereas the claimed kernel gives `2^(-1) = 1/2`. -/
theorem C1_integrand_positive_exponent :
    integrand (finite 1) (finite 1) = .ok (finite 2) ∧
    integrand (finite 1) (finite 1) ≠ .ok (finite (1/2)) := by
  have h : integrand (finite 1) (finite 1) = .ok (finite 2) := by
    unfold integrand
    rw [fpow_finite_two, ok_bind, fdiv_fin_fin,
        if_neg (by norm_num : ¬ (1:ℚ) = 0), ok_bind]
    have e1 : fadd (finite 1) (finite 1) = finite ((1:ℚ) + 1) := rfl
    rw [e1, fdiv_fin_fin, if_neg (by norm_num : ¬ (2:ℚ) = 0), ok_bind]
    have e2 : fadd (finite 1) (finite ((1:ℚ) ^ 2 / 1)) =
        finite (1 + (1:ℚ) ^ 2 / 1) := rfl
    rw [e2, fpow_fin, if_neg (by norm_num : ¬ ((1:ℚ) + 1) / 2 = 0),
        if_neg (by norm_num : ¬ (1 + (1:ℚ) ^ 2 / 1) = 1),
        if_neg (by norm_num : ¬ (1 + (1:ℚ) ^ 2 / 1) = 0),
        if_pos (by norm_num : (0:ℚ) < 1 + (1:ℚ) ^ 2 / 1)]
    norm_num
  refine ⟨h, ?_⟩
  rw [h]
  intro hc
  have := (Except.ok.injEq _ _).mp hc
  simp at this
  norm_num at this

/-- C2 counterexample: the claim states `calculate_probability` never
raises.  At `df = 2` (any `z`) the gamma evaluation inside
`calculate_Km`, which runs outside the `try/except`, raises
`ZeroDivisionError` and the exception escapes. -/
theorem C2_cx :
    calculate_probability (finite 2) (finite 0) = .error .zeroDivisionError :=
  cp_err_lt_four (by norm_num)

/-- C2 amended: only exceptions raised during the CDF integral are caught;
the normalization-constant computation runs unguarded.  For finite
`df >= 4` the call returns a float (`nan`) and never raises, while for
finite `df < 4` the `ZeroDivisionError` from `gamma_function` escapes. -/
theorem C2_amended : ∀ df z : ℚ,
    (4 ≤ df → ∃ v, calculate_probability (finite df) (finite z) = .ok v) ∧
    (df < 4 →
      calculate_probability (finite df) (finite z) = .error .zeroDivisionError) :=
  fun _ _ =>
    ⟨fun h => ⟨nan, cp_nan_ge_four h⟩, fun h => cp_err_lt_four h⟩

/-- C2 witness: the amended claim at `df = 7` (returns a float) and at
`df = 3` (raises). -/
theorem C2_witness :
    (∃ v, calculate_probability (finite 7) (finite 0) = .ok v) ∧
    calculate_probability (finite 3) (finite 5) = .error .zeroDivisionError :=
  ⟨(C2_amended 7 0).1 (by norm_num), (C2_amended 3 5).2 (by norm_num)⟩

/-- C3 counterexample: the claim states `gamma_function` never raises; at
`alpha = 3/4` evaluating the kernel at the left endpoint computes
`0 ** (-1/4)` and Python raises `ZeroDivisionError`. -/
theorem C3_cx :
    gamma_function (finite (3/4)) = .error .zeroDivisionError :=
  gamma_err_lt_one (by norm_num)

/-- C3 amended: for `alpha >= 1` the float contract holds —
`gamma_function` never raises and returns `inf` or `nan`; for `alpha < 1`
the `0 ** negative` evaluation at the left endpoint raises
`ZeroDivisionError` instead. -/
theorem C3_amended : ∀ alpha : ℚ, 1 ≤ alpha →
    gamma_function (finite alpha) = .ok pinf ∨
    gamma_function (finite alpha) = .ok nan := by
  intro alpha h
  rcases eq_or_lt_of_le h with h1 | h1
  · left
    rw [← h1]
    exact gamma_pinf_one
  · right
    exact gamma_nan_gt_one h1

/-- C3 witness: the amended claim at `alpha = 1`. -/
theorem C3_witness :
    gamma_function (finite 1) = .ok pinf ∨
    gamma_function (finite 1) = .ok nan :=
  C3_amended 1 le_rfl

/-- C4: the claim states `gamma_function` approximates the factorial
(`gamma(1) ~ 1`, `gamma(2) ~ 1`, `gamma(5) ~ 24`).  Because the upper
integration bound is the literal `float('inf')`, the computed values are
instead `inf`, `nan` and `nan`. -/
theorem C4_gamma_degenerate :
    gamma_function (finite 1) = .ok pinf ∧
    gamma_function (finite 2) = .ok nan ∧
    gamma_function (finite 5) = .ok nan :=
  ⟨gamma_pinf_one, gamma_nan_gt_one (by norm_num), gamma_nan_gt_one (by norm_num)⟩

/-- C5 counterexample: the claim states `calculate_Km` returns a value for
every `m > 0`; at `m = 1` the inner call `gamma_function(0.5)` raises
`ZeroDivisionError`, so `calculate_Km` raises instead of returning. -/
theorem C5_cx : calculate_Km (finite 1) = .error .zeroDivisionError :=
  Km_err (by norm_num)

/-- C5 amended: for `m >= 2` both gamma evaluations and the square root
succeed and `calculate_Km` returns exactly
`gamma(0.5*m + 0.5) / (sqrt(m*pi) * gamma(0.5*m))`, with the positive
infinity sentinel when that denominator compares equal to `0.0`; for
`0 < m < 2` the call raises instead. -/
theorem C5_amended : ∀ m : ℚ, 2 ≤ m →
    ∃ gNum gDen s,
      gamma_function (finite (1/2 * m + 1/2)) = .ok gNum ∧
      gamma_function (finite (1/2 * m)) = .ok gDen ∧
      fsqrt (fmul (finite m) fpi) = .ok s ∧
      calculate_Km (finite m) =
        (if pyEq (fmul s gDen) (finite 0) then .ok pinf
         else fdiv gNum (fmul s gDen)) := by
  intro m hm
  have hnum : gamma_function (finite (1/2 * m + 1/2)) = .ok nan :=
    gamma_nan_gt_one (by linarith)
  have hs' : fsqrt (finite (m * piQ)) = .ok (finite (ratSqrt (m * piQ))) :=
    Km_sqrt_ok (by linarith)
  rcases Km_den_cases hm with ⟨hg2, _⟩ | ⟨hg2, _⟩
  · refine ⟨nan, pinf, finite (ratSqrt (m * piQ)), hnum, hg2, hs', ?_⟩
    rw [Km_step, hnum, ok_bind, hs', ok_bind, hg2, ok_bind]
    rfl
  · refine ⟨nan, nan, finite (ratSqrt (m * piQ)), hnum, hg2, hs', ?_⟩
    rw [Km_step, hnum, ok_bind, hs', ok_bind, hg2, ok_bind]
    rfl

/-- C5 witness: the amended claim at `m = 2`. -/
theorem C5_witness :
    ∃ gNum gDen s,
      gamma_function (finite (1/2 * 2 + 1/2)) = .ok gNum ∧
      gamma_function (finite (1/2 * 2)) = .ok gDen ∧
      fsqrt (fmul (finite 2) fpi) = .ok s ∧
      calculate_Km (finite 2) =
        (if pyEq (fmul s gDen) (finite 0) then .ok pinf
         else fdiv gNum (fmul s gDen)) :=
  C5_amended 2 le_rfl

/-- C6: if `calculate_Km(df/2)` returns the `+inf` sentinel,
`calculate_probability` returns `nan` immediately: the post-`Km` body
`cdfAfterKm` short-circuits to `nan` on the sentinel for every `m` and
`z`, before its integral branch, and `calculate_probability` is exactly
the `Km` computation followed by that body. -/
theorem C6_sentinel_short_circuit :
    (∀ m z : EFloat, cdfAfterKm m z pinf = nan) ∧
    (∀ df z : EFloat, calculate_probability df z =
      (do
        let m ← fdiv df (finite 2)
        let Km ← calculate_Km m
        pure (cdfAfterKm m z Km))) := by
  constructor
  · intro m z
    rfl
  · intro df z
    unfold calculate_probability cdfAfterKm
    cases hm : fdiv df (finite 2) with
    | error e => rfl
    | ok m =>
        rw [ok_bind, ok_bind]
        cases hk : calculate_Km m with
        | error e => rfl
        | ok Km =>
            rw [ok_bind, ok_bind]
            cases hEq : pyEq Km pinf with
            | false =>
                simp only [hEq, Bool.false_eq_true, if_false]
                cases htr : trap (fun u => integrand u m) ninf z 1000 with
                | error e => rfl
                | ok r => rfl
            | true =>
                simp only [hEq, if_true]

/-- C7: both embedded `integrate` routines are instances of `trap`, and
`trap` returns exactly the composite trapezoidal formula
`h * (0.5*f(a) + 0.5*f(b) + Σ_{i=1}^{N-1} f(a + i*h))` for finite bounds
`a <= b` and `N >= 1`, whenever every sampled evaluation of the enclosing
integrand succeeds. -/
theorem C7_trapezoid :
    ∀ (f : EFloat → Except PyExc EFloat) (aq bq : ℚ) (N : ℕ),
      1 ≤ N → aq ≤ bq →
      (∀ t ∈ sampleList aq bq N, (f (finite t)).isOk = true) →
      trap f (finite aq) (finite bq) N = .ok (specTrapezoid f aq bq N) :=
  fun f aq bq N hN _ hok => trap_spec f aq bq N hN hok

/-- C7 witness: the trapezoidal formula at the gamma integrand with
`alpha = 2` over `[0, 1]` with `N = 1`. -/
theorem C7_witness :
    trap (gamma_integrand (finite 2)) (finite 0) (finite 1) 1 =
      .ok (specTrapezoid (gamma_integrand (finite 2)) 0 1 1) := by
  refine C7_trapezoid (gamma_integrand (finite 2)) 0 1 1 (by norm_num) (by norm_num) ?_
  intro t ht
  have hmem : t = 0 ∨ t = 1 := by simpa [sampleList] using ht
  rcases hmem with rfl | rfl
  · rw [gi_zero_gt (by norm_num : (1:ℚ) < 2)]
    rfl
  · unfold gamma_integrand
    have e1 : fsub (finite 2) (finite 1) = finite ((2:ℚ) + -1) := rfl
    rw [e1, fpow_fin, if_neg (by norm_num : ¬ ((2:ℚ) + -1 = 0)), if_pos rfl,
        ok_bind]
    rfl

/-- C8: the claim states the CDF is monotonically non-decreasing in `z`.
The code returns `nan` at every `df >= 4` and finite `z`, and Python's
`<=` on `nan` is `False`, so `cdf(7, 0) <= cdf(7, 1)` fails. -/
theorem C8_not_monotone :
    calculate_probability (finite 7) (finite 0) = .ok nan ∧
    calculate_probability (finite 7) (finite 1) = .ok nan ∧
    pyLe nan nan = false :=
  ⟨cp_nan_ge_four (by norm_num), cp_nan_ge_four (by norm_num), rfl⟩

/-- C9: `gamma_function` never returns a finite value: for finite `alpha`
it raises `ZeroDivisionError` when `alpha < 1`, returns `+inf` at
`alpha = 1`, and returns `nan` for `alpha > 1` (the infinite upper bound
makes `h` and all interior samples infinite). -/
theorem C9_gamma_trichotomy : ∀ alpha : ℚ,
    (alpha < 1 → gamma_function (finite alpha) = .error .zeroDivisionError) ∧
    (alpha = 1 → gamma_function (finite alpha) = .ok pinf) ∧
    (1 < alpha → gamma_function (finite alpha) = .ok nan) :=
  fun _ =>
    ⟨fun h => gamma_err_lt_one h,
     fun h => by rw [h]; exact gamma_pinf_one,
     fun h => gamma_nan_gt_one h⟩

/-- C9 witness: the trichotomy at `alpha = 1/2`, `1` and `3`. -/
theorem C9_witness :
    gamma_function (finite (1/2)) = .error .zeroDivisionError ∧
    gamma_function (finite 1) = .ok pinf ∧
    gamma_function (finite 3) = .ok nan :=
  ⟨(C9_gamma_trichotomy (1/2)).1 (by norm_num),
   (C9_gamma_trichotomy 1).2.1 rfl,
   (C9_gamma_trichotomy 3).2.2 (by norm_num)⟩

/-- C10: for every finite `df >= 4` and finite `z`, the normalization
constant evaluates to `nan` (non-finite but not the `+inf` sentinel, so
the sentinel branch is not taken), the CDF integral from `-inf` evaluates
to `nan`, and `calculate_probability` returns `nan`. -/
theorem C10_nan_for_df_ge_four : ∀ df z : ℚ, 4 ≤ df →
    calculate_Km (finite (df / 2)) = .ok nan ∧
    trap (fun u => integrand u (finite (df / 2))) ninf (finite z) 1000 = .ok nan ∧
    calculate_probability (finite df) (finite z) = .ok nan :=
  fun _ _ h =>
    ⟨Km_nan (by linarith), cdf_trap_nan (by linarith), cp_nan_ge_four h⟩

/-- C10 witness: the claim at `df = 4`, `z = 3`. -/
theorem C10_witness :
    calculate_Km (finite ((4:ℚ) / 2)) = .ok nan ∧
    trap (fun u => integrand u (finite ((4:ℚ) / 2))) ninf (finite 3) 1000 = .ok nan ∧
    calculate_probability (finite 4) (finite 3) = .ok nan :=
  C10_nan_for_df_ge_four 4 3 (by norm_num)
